import Mathlib

/-!
Verification of the pyrpl PID hardware module (src/pyrpl/hardware_modules/pid.py):
the fixed-point register codec and the analytic transfer-function synthesizer.

Conventions of the embedding:
* Engineering values handled by the register codec are rationals (`ℚ`); raw register
  contents are integers (`ℤ`).  Python's `round` (banker's rounding, ties to even) is
  embedded as `pyRound`.
* The register conversion helpers (`_from_pyint`, `_to_pyint`,
  `FloatRegister.from_python`/`to_python`) are not part of the given source tree;
  they are modelled from the spec, as indicated by their doc comments.
-/

namespace Pyrpl

/-- Python's built-in round on a rational: nearest integer, ties to even. -/
def pyRound (q : ℚ) : ℤ :=
  if q - ⌊q⌋ < 1/2 then ⌊q⌋
  else if (1:ℚ)/2 < q - ⌊q⌋ then ⌊q⌋ + 1
  else if Even ⌊q⌋ then ⌊q⌋ else ⌊q⌋ + 1

theorem abs_pyRound_sub (q : ℚ) : |(pyRound q : ℚ) - q| ≤ 1/2 := by
  have h0 : ((⌊q⌋ : ℤ) : ℚ) ≤ q := Int.floor_le q
  have h1 : q < ⌊q⌋ + 1 := Int.lt_floor_add_one q
  unfold pyRound
  split_ifs with hlt hgt hev <;>
    (rw [abs_le]; push_cast; constructor <;> linarith)

/-- Static descriptor of one fixed-point register parameter (spec section 3). -/
structure Descriptor where
  bits : ℕ
  norm : ℚ
  invert : Bool

/-- The value as seen by the raw register: negated first when invert is set. -/
def signedVal (d : Descriptor) (v : ℚ) : ℚ :=
  if d.invert then -v else v

/-- The raw register content as seen by the decoded value: negated when invert is set. -/
def rawSigned (d : Descriptor) (raw : ℤ) : ℤ :=
  if d.invert then -raw else raw

theorem signedVal_eq_false (d : Descriptor) (v : ℚ) (h : d.invert = false) :
    signedVal d v = v := by simp [signedVal, h]

theorem signedVal_eq_true (d : Descriptor) (v : ℚ) (h : d.invert = true) :
    signedVal d v = -v := by simp [signedVal, h]

/-- Modelled from the spec: `FixedPointCodec.encode` (the conversion code
`FloatRegister.from_python` is not under src/): raw = round(value * normalization_factor),
the value negated first when invert is set, then checked against the two's-complement
range for bit_width; RangeError when the rounded value does not fit, never a wrap. -/
def encode (d : Descriptor) (v : ℚ) : Except String ℤ :=
  if -(2:ℤ)^(d.bits-1) ≤ pyRound (signedVal d v * d.norm) ∧
      pyRound (signedVal d v * d.norm) ≤ 2^(d.bits-1) - 1 then
    Except.ok (pyRound (signedVal d v * d.norm))
  else Except.error "RangeError"

/-- Modelled from the spec: `FixedPointCodec.decode` (the conversion code
`FloatRegister.to_python` is not under src/): value = (invert ? -raw : raw) / norm. -/
def decode (d : Descriptor) (raw : ℤ) : ℚ :=
  (rawSigned d raw : ℚ) / d.norm

theorem decode_eq_false (d : Descriptor) (raw : ℤ) (h : d.invert = false) :
    decode d raw = (raw : ℚ) / d.norm := by simp [decode, rawSigned, h]

theorem decode_eq_true (d : Descriptor) (raw : ℤ) (h : d.invert = true) :
    decode d raw = ((-raw : ℤ) : ℚ) / d.norm := by simp [decode, rawSigned, h]

/-- Modelled from the spec: the two's-complement helper `_from_pyint` (not under
src/): RangeError when v does not fit in bitlength-bit two's complement, otherwise
the register representation (a negative v is stored offset by 2^bitlength). -/
def from_pyint (v : ℤ) (bitlength : ℕ) : Except String ℤ :=
  if -(2:ℤ)^(bitlength-1) ≤ v ∧ v ≤ 2^(bitlength-1) - 1 then
    Except.ok (if v < 0 then v + 2^bitlength else v)
  else Except.error "RangeError"

/-- Modelled from the spec: the two's-complement helper `_to_pyint` (not under
src/): reinterprets a raw register value as a signed bitlength-bit integer. -/
def to_pyint (v : ℤ) (bitlength : ℕ) : ℤ :=
  if 2^(bitlength-1) ≤ v then v - 2^bitlength else v

/-- `IValAttribute.set_value` (pid.py lines 17-19): the raw register value written to
address 0x100 for a requested integrator value in volts:
`_from_pyint(int(round(value * 2**13)), bitlength=16)`. -/
def ival_set_raw (value : ℚ) : Except String ℤ :=
  from_pyint (pyRound (value * 2^13)) 16

/-- `IValAttribute.get_value` (pid.py lines 13-14): the integrator value in volts
decoded from the raw register: `_to_pyint(read(0x100), bitlength=16) / 2**13`. -/
def ival_get (reg : ℤ) : ℚ :=
  (to_pyint reg 16 : ℚ) / 2^13

theorem div_pyRound_sub_le (N x : ℚ) (hN : 0 < N) :
    |(pyRound (x * N) : ℚ) / N - x| ≤ 1 / N := by
  have hb := abs_pyRound_sub (x * N)
  have hne : N ≠ 0 := ne_of_gt hN
  have hrw : (pyRound (x * N) : ℚ) / N - x = ((pyRound (x * N) : ℚ) - x * N) / N := by
    field_simp
    ring
  rw [hrw, abs_div, abs_of_pos hN]
  gcongr
  linarith

theorem encode_ok (d : Descriptor) (v : ℚ) (raw : ℤ)
    (h : encode d v = Except.ok raw) :
    raw = pyRound (signedVal d v * d.norm) ∧
      -(2:ℤ)^(d.bits-1) ≤ raw ∧ raw ≤ 2^(d.bits-1) - 1 := by
  unfold encode at h
  split_ifs at h with hr
  simp only [Except.ok.injEq] at h
  subst h
  exact ⟨rfl, hr.1, hr.2⟩

theorem encode_out (d : Descriptor) (v : ℚ)
    (hout : pyRound (signedVal d v * d.norm) < -(2:ℤ)^(d.bits-1) ∨
      (2:ℤ)^(d.bits-1) - 1 < pyRound (signedVal d v * d.norm)) :
    encode d v = Except.error "RangeError" := by
  unfold encode
  split_ifs with hr
  · exfalso; rcases hout with h | h <;> omega
  · rfl

theorem decode_encode_le (d : Descriptor) (v : ℚ) (raw : ℤ) (hN : 0 < d.norm)
    (h : encode d v = Except.ok raw) : |decode d raw - v| ≤ 1 / d.norm := by
  have hraw := (encode_ok d v raw h).1
  subst hraw
  have hb := div_pyRound_sub_le d.norm (signedVal d v) hN
  cases hinv : d.invert
  · rw [decode_eq_false d _ hinv]
    rw [signedVal_eq_false d v hinv] at hb ⊢
    exact hb
  · rw [decode_eq_true d _ hinv]
    rw [signedVal_eq_true d v hinv] at hb ⊢
    have hflip : ((-(pyRound (-v * d.norm)) : ℤ) : ℚ) / d.norm - v
        = -((pyRound (-v * d.norm) : ℚ) / d.norm - -v) := by push_cast; ring
    rw [hflip, abs_neg]
    exact hb

theorem ival_set_ok (v : ℚ) (reg : ℤ) (h : ival_set_raw v = Except.ok reg) :
    to_pyint reg 16 = pyRound (v * 2^13) := by
  unfold ival_set_raw from_pyint at h
  split_ifs at h with hr hneg
  · simp only [Except.ok.injEq] at h
    subst h
    unfold to_pyint
    norm_num at hr hneg ⊢
    omega
  · simp only [Except.ok.injEq] at h
    subst h
    unfold to_pyint
    norm_num at hr hneg ⊢
    omega

theorem ival_out (v : ℚ)
    (hout : pyRound (v * 2^13) < -(2:ℤ)^15 ∨ (2:ℤ)^15 - 1 < pyRound (v * 2^13)) :
    ival_set_raw v = Except.error "RangeError" := by
  unfold ival_set_raw from_pyint
  split_ifs with hr
  · norm_num at hr hout
    rcases hout with h | h <;> omega
  · rfl

/-- C1: fixed-point codec round-trip: whenever `encode` succeeds on a value v,
decoding the resulting raw register value returns v to within one least
significant bit, i.e. within 1/normalization_factor; for the integrator state
register (16 bits, normalization 2^13) the read-back error is at most 2^-13 volts. -/
theorem C1_codec_roundtrip :
    (∀ (d : Descriptor) (v : ℚ) (raw : ℤ), 0 < d.norm →
        encode d v = Except.ok raw → |decode d raw - v| ≤ 1 / d.norm) ∧
    (∀ (v : ℚ) (reg : ℤ), ival_set_raw v = Except.ok reg →
        |ival_get reg - v| ≤ 1 / 2^13) := by
  constructor
  · intro d v raw hN h
    exact decode_encode_le d v raw hN h
  · intro v reg h
    have hto := ival_set_ok v reg h
    unfold ival_get
    rw [hto]
    exact div_pyRound_sub_le (2^13) v (by norm_num)

theorem C1_codec_roundtrip_witness :
    |decode ⟨16, 2^13, false⟩ 2731 - 1/3| ≤ 1 / (Descriptor.mk 16 (2^13) false).norm ∧
    |ival_get 2731 - 1/3| ≤ 1 / 2^13 :=
  ⟨C1_codec_roundtrip.1 ⟨16, 2^13, false⟩ (1/3) 2731 (by norm_num)
      (by unfold encode signedVal pyRound; norm_num),
   C1_codec_roundtrip.2 (1/3) 2731
      (by unfold ival_set_raw from_pyint pyRound; norm_num)⟩

/-- C5: encode range check: a value whose rounded raw integer does not fit the
declared two's-complement bit width yields RangeError, and a successful encode
never wraps: the stored raw is exactly the rounded integer and lies in range; in
particular the integrator state write with |round(value * 2^13)| beyond the
16-bit signed range yields RangeError rather than a wrapped register value. -/
theorem C5_encode_range_error :
    (∀ (d : Descriptor) (v : ℚ),
        (pyRound (signedVal d v * d.norm) < -(2:ℤ)^(d.bits-1) ∨
         (2:ℤ)^(d.bits-1) - 1 < pyRound (signedVal d v * d.norm)) →
        encode d v = Except.error "RangeError") ∧
    (∀ (d : Descriptor) (v : ℚ) (raw : ℤ), encode d v = Except.ok raw →
        raw = pyRound (signedVal d v * d.norm) ∧
        -(2:ℤ)^(d.bits-1) ≤ raw ∧ raw ≤ 2^(d.bits-1) - 1) ∧
    (∀ v : ℚ, (pyRound (v * 2^13) < -(2:ℤ)^15 ∨ (2:ℤ)^15 - 1 < pyRound (v * 2^13)) →
        ival_set_raw v = Except.error "RangeError") := by
  refine ⟨?_, ?_, ?_⟩
  · intro d v hout
    exact encode_out d v hout
  · intro d v raw h
    exact encode_ok d v raw h
  · intro v hout
    exact ival_out v hout

theorem C5_encode_range_error_witness :
    encode ⟨16, 2^13, false⟩ 5 = Except.error "RangeError" ∧
    ival_set_raw 5 = Except.error "RangeError" :=
  ⟨C5_encode_range_error.1 ⟨16, 2^13, false⟩ 5
      (Or.inr (by norm_num [signedVal, pyRound])),
   C5_encode_range_error.2.2 5 (Or.inr (by norm_num [pyRound]))⟩

/-! ## Transfer-function synthesizer (Pid.transfer_function, pid.py lines 107-159)

Exact complex arithmetic, one frequency sample at a time (the numpy code is
element-wise over the frequency array). -/

/-- Integral branch of Pid.transfer_function (pid.py lines 134-137):
`self.i/(frequencies*1j) * np.exp(-1j * 8e-9 * self._frequency_correction *
frequencies * 2 * np.pi)`. -/
noncomputable def integralBranch (i c freq : ℝ) : ℂ :=
  (i : ℂ) / ((freq : ℂ) * Complex.I) *
    Complex.exp (-Complex.I * ((8e-9 : ℝ) : ℂ) * (c : ℂ) * (freq : ℂ) * 2 * ((Real.pi : ℝ) : ℂ))

/-- The integral branch as the spec words it: `tf = i / (j·2π·f) · exp(-j·2π·f·T·c)`
with T = 8 ns; written from the spec for comparison with `integralBranch`. -/
noncomputable def integralBranchSpec (i c freq : ℝ) : ℂ :=
  (i : ℂ) / (Complex.I * 2 * ((Real.pi : ℝ) : ℂ) * (freq : ℂ)) *
    Complex.exp (-Complex.I * 2 * ((Real.pi : ℝ) : ℂ) * (freq : ℂ) * ((8e-9 : ℝ) : ℂ) * (c : ℂ))

/-- One stage of the input filter cascade (pid.py lines 146-155): coefficient 0 is
skipped, a positive coefficient is a low-pass `tf /= (1 + 1j*frequencies/f)`, a
negative one a high-pass `tf /= (1 + 1j*f/frequencies)`. -/
noncomputable def filterStage (freq f : ℝ) (g : ℂ) : ℂ :=
  if f = 0 then g
  else if 0 < f then g / (1 + Complex.I * (freq : ℂ) / (f : ℂ))
  else g / (1 + Complex.I * (f : ℂ) / (freq : ℂ))

/-- Extra module delay in cycles contributed by one filter stage
(pid.py lines 151 and 155). -/
noncomputable def stageDelay (f : ℝ) : ℕ :=
  if f = 0 then 0 else if 0 < f then 2 else 1

/-- The filter loop of Pid.transfer_function: the complex gain and the accumulated
module delay in cycles, folded over the inputfilter slots in order. -/
noncomputable def filterFold (freq : ℝ) (start : ℂ × ℕ) (filt : List ℝ) : ℂ × ℕ :=
  filt.foldl (fun acc f => (filterStage freq f acc.1, acc.2 + stageDelay f)) start

/-- Pid.transfer_function (pid.py lines 107-159) at one frequency sample: integral
branch plus proportional branch, then the input filter cascade, then the total
propagation delay `delay = module_delay * 8e-9 / frequency_correction + extradelay`
applied as the phase factor `exp(-1j * delay * frequencies * 2 * np.pi)`, with the
base module delay `_delay = 3` cycles. -/
noncomputable def transfer_function (p i c : ℝ) (filt : List ℝ) (extradelay freq : ℝ) : ℂ :=
  (filterFold freq (integralBranch i c freq + (p : ℂ), 3) filt).1 *
    Complex.exp (-Complex.I *
      ((((filterFold freq (integralBranch i c freq + (p : ℂ), 3) filt).2 : ℝ) *
        (8e-9 : ℝ) / c + extradelay : ℝ) : ℂ) * (freq : ℂ) * 2 * ((Real.pi : ℝ) : ℂ))

theorem filterFold_cons (freq : ℝ) (start : ℂ × ℕ) (f : ℝ) (fs : List ℝ) :
    filterFold freq start (f :: fs)
      = filterFold freq (filterStage freq f start.1, start.2 + stageDelay f) fs := rfl

theorem filterFold_spec (freq : ℝ) (filt : List ℝ) :
    ∀ start : ℂ × ℕ,
      filterFold freq start filt
        = (filt.foldl (fun g f => filterStage freq f g) start.1,
           start.2 + (filt.map stageDelay).sum) := by
  induction filt with
  | nil => intro start; simp [filterFold]
  | cons f fs ih =>
    intro start
    rw [filterFold_cons, ih]
    simp [List.foldl_cons, Nat.add_assoc]

theorem abs_exp_phase (r freq : ℝ) :
    Complex.abs (Complex.exp (-Complex.I * ((r : ℝ) : ℂ) * (freq : ℂ) * 2
      * ((Real.pi : ℝ) : ℂ))) = 1 := by
  rw [show -Complex.I * ((r : ℝ) : ℂ) * (freq : ℂ) * 2 * ((Real.pi : ℝ) : ℂ)
      = ((-(r * freq * 2 * Real.pi) : ℝ) : ℂ) * Complex.I by push_cast; ring]
  exact Complex.abs_exp_ofReal_mul_I _

theorem abs_integralBranch (i c freq : ℝ) (_hf : freq ≠ 0) :
    Complex.abs (integralBranch i c freq) = |i| / |freq| := by
  unfold integralBranch
  rw [map_mul, map_div₀]
  rw [show -Complex.I * ((8e-9 : ℝ) : ℂ) * (c : ℂ) * (freq : ℂ) * 2 * ((Real.pi : ℝ) : ℂ)
      = ((-(8e-9 * c * freq * 2 * Real.pi) : ℝ) : ℂ) * Complex.I by push_cast; ring]
  rw [Complex.abs_exp_ofReal_mul_I]
  simp [Complex.abs_ofReal, Complex.abs_I]

theorem abs_integralBranchSpec (i c freq : ℝ) :
    Complex.abs (integralBranchSpec i c freq) = |i| / (2 * Real.pi * |freq|) := by
  unfold integralBranchSpec
  rw [map_mul, map_div₀]
  rw [show -Complex.I * 2 * ((Real.pi : ℝ) : ℂ) * (freq : ℂ) * ((8e-9 : ℝ) : ℂ) * (c : ℂ)
      = ((-(2 * Real.pi * freq * 8e-9 * c) : ℝ) : ℂ) * Complex.I by push_cast; ring]
  rw [Complex.abs_exp_ofReal_mul_I]
  rw [show Complex.I * 2 * ((Real.pi : ℝ) : ℂ) * (freq : ℂ)
      = ((2 * Real.pi * freq : ℝ) : ℂ) * Complex.I by push_cast; ring]
  simp only [map_mul, Complex.abs_I, Complex.abs_ofReal, mul_one]
  rw [abs_mul, abs_mul, abs_of_pos Real.pi_pos]
  norm_num

/-- C2 counterexample: at frequency 1 Hz with unit integral gain and correction
factor 1, the code's integral branch has magnitude 1 (the code divides the gain
by j·f), while the spec formula `i / (j·2π·f) · exp(-j·2π·f·T·c)` has magnitude
1/(2π); the two differ. -/
theorem C2_integral_branch_counterexample :
    integralBranch 1 1 1 ≠ integralBranchSpec 1 1 1 := by
  intro heq
  have h1 : Complex.abs (integralBranch 1 1 1) = 1 := by
    rw [abs_integralBranch 1 1 1 one_ne_zero]; norm_num
  have h2 : Complex.abs (integralBranchSpec 1 1 1) = 1 / (2 * Real.pi) := by
    rw [abs_integralBranchSpec 1 1 1]; norm_num
  rw [heq, h2] at h1
  have hπ : Real.pi ≠ 0 := ne_of_gt Real.pi_pos
  field_simp at h1
  nlinarith [Real.pi_gt_three, h1]

/-- C2 amended: the integral contribution of transfer_function equals
`i / (j·f) · exp(-j·2π·f·T·c)` with T = 8 ns — the gain i is divided by j times
the frequency (not j times 2π times the frequency), with one clock cycle of delay
folded into the phase term; consequently its magnitude is |i|/|f|
(unity gain at f = i), not |i|/(2π·f). -/
theorem C2_integral_branch (i c freq : ℝ) (hf : freq ≠ 0) :
    integralBranch i c freq
      = (i : ℂ) / (Complex.I * (freq : ℂ)) *
          Complex.exp (-Complex.I * 2 * ((Real.pi : ℝ) : ℂ) * (freq : ℂ)
            * (((8e-9 : ℝ) * c : ℝ) : ℂ)) ∧
    Complex.abs (integralBranch i c freq) = |i| / |freq| := by
  constructor
  · unfold integralBranch
    rw [show Complex.exp (-Complex.I * ((8e-9 : ℝ) : ℂ) * (c : ℂ) * (freq : ℂ) * 2
          * ((Real.pi : ℝ) : ℂ))
        = Complex.exp (-Complex.I * 2 * ((Real.pi : ℝ) : ℂ) * (freq : ℂ)
            * (((8e-9 : ℝ) * c : ℝ) : ℂ)) by
      congr 1
      push_cast
      ring]
    ring
  · exact abs_integralBranch i c freq hf

theorem C2_integral_branch_witness :
    Complex.abs (integralBranch 2 1 1) = |(2:ℝ)| / |(1:ℝ)| :=
  (C2_integral_branch 2 1 1 one_ne_zero).2

/-- C3: filter cascade stage semantics: a zero coefficient changes neither gain
nor delay; a positive coefficient divides the gain by (1 + j·frequency/f) and adds
2 cycles; a negative coefficient divides the gain by (1 + j·f/frequency) and adds
1 cycle; and the module delay accumulates deterministically and monotonically over
the stages of the cascade inside transfer_function. -/
theorem C3_filter_stage_semantics (freq : ℝ) (g : ℂ) (f : ℝ) (p i c : ℝ) (fs : List ℝ) :
    (filterStage freq 0 g = g ∧ stageDelay 0 = 0) ∧
    (0 < f → filterStage freq f g = g / (1 + Complex.I * (freq : ℂ) / (f : ℂ)) ∧
      stageDelay f = 2) ∧
    (f < 0 → filterStage freq f g = g / (1 + Complex.I * (f : ℂ) / (freq : ℂ)) ∧
      stageDelay f = 1) ∧
    (filterFold freq (integralBranch i c freq + (p : ℂ), 3) (fs ++ [f])).2
      = (filterFold freq (integralBranch i c freq + (p : ℂ), 3) fs).2 + stageDelay f ∧
    (filterFold freq (integralBranch i c freq + (p : ℂ), 3) fs).2
      ≤ (filterFold freq (integralBranch i c freq + (p : ℂ), 3) (fs ++ [f])).2 := by
  refine ⟨⟨?_, ?_⟩, ?_, ?_, ?_, ?_⟩
  · simp [filterStage]
  · simp [stageDelay]
  · intro hpos
    have hne : f ≠ 0 := ne_of_gt hpos
    constructor
    · simp [filterStage, hne, hpos]
    · simp [stageDelay, hne, hpos]
  · intro hneg
    have hne : f ≠ 0 := ne_of_lt hneg
    have hnpos : ¬ 0 < f := not_lt.mpr (le_of_lt hneg)
    constructor
    · simp [filterStage, hne, hnpos]
    · simp [stageDelay, hne, hnpos]
  · rw [filterFold_spec, filterFold_spec]
    simp
    omega
  · rw [filterFold_spec, filterFold_spec]
    simp

theorem C3_filter_stage_semantics_witness :
    stageDelay 1000 = 2 ∧ stageDelay (-1000) = 1 :=
  ⟨((C3_filter_stage_semantics 1000 1 1000 0 0 0 []).2.1 (by norm_num)).2,
   ((C3_filter_stage_semantics 1000 1 (-1000) 0 0 0 []).2.2.1 (by norm_num)).2⟩

/-- C4: total delay application: transfer_function multiplies the combined branch
and filter gain by `exp(-j·2π·f·delay)` with
`delay = (3 + extra_delay_cycles)·8e-9/c + extradelay`; and with p = 1, i = 0 and
no filters, at any nonzero frequency the result is exactly
`exp(-j·2π·f·(3·8e-9/c))` and has magnitude 1. -/
theorem C4_total_delay (p i c : ℝ) (filt : List ℝ) (extradelay freq : ℝ) :
    transfer_function p i c filt extradelay freq
      = (filt.foldl (fun g f => filterStage freq f g) (integralBranch i c freq + (p : ℂ))) *
          Complex.exp (-Complex.I *
            ((((3 + (filt.map stageDelay).sum : ℕ) : ℝ) * (8e-9 : ℝ) / c
              + extradelay : ℝ) : ℂ) * (freq : ℂ) * 2 * ((Real.pi : ℝ) : ℂ)) ∧
    (freq ≠ 0 → transfer_function 1 0 c [] 0 freq
        = Complex.exp (-Complex.I * ((3 * (8e-9 : ℝ) / c : ℝ) : ℂ) * (freq : ℂ) * 2
            * ((Real.pi : ℝ) : ℂ)) ∧
      Complex.abs (transfer_function 1 0 c [] 0 freq) = 1) := by
  constructor
  · unfold transfer_function
    rw [filterFold_spec]
  · intro _hf
    have heq : transfer_function 1 0 c [] 0 freq
        = Complex.exp (-Complex.I * ((3 * (8e-9 : ℝ) / c : ℝ) : ℂ) * (freq : ℂ) * 2
            * ((Real.pi : ℝ) : ℂ)) := by
      unfold transfer_function
      simp [filterFold, integralBranch]
    refine ⟨heq, ?_⟩
    rw [heq]
    exact abs_exp_phase (3 * (8e-9 : ℝ) / c) freq

theorem C4_total_delay_witness :
    Complex.abs (transfer_function 1 0 1 [] 0 1) = 1 :=
  ((C4_total_delay 1 0 1 [] 0 1).2 one_ne_zero).2

/-! ## Non-finite sample tracking (C6, C10)

The numpy code divides without guarding the zero-frequency sample; an IEEE
complex division whose denominator is exactly zero yields a non-finite
(inf/NaN) sample, with a runtime warning at most, and non-finiteness then
propagates through the remaining arithmetic.  `none` stands for such an
unlabeled non-finite sample. -/

open Classical in
/-- Complex division as the float code performs it: `none` when the denominator
is exactly zero (the sample turns non-finite), ordinary division otherwise. -/
noncomputable def cdivFP (x y : ℂ) : Option ℂ :=
  if y = 0 then none else some (x / y)

/-- The integral branch of pid.py lines 134-137 with non-finite tracking:
`self.i/(frequencies*1j)` poisons the sample when the frequency is 0. -/
noncomputable def intBranchFP (i c freq : ℝ) : Option ℂ :=
  (cdivFP (i : ℂ) ((freq : ℂ) * Complex.I)).map
    (fun q => q * Complex.exp (-Complex.I * ((8e-9 : ℝ) : ℂ) * (c : ℂ) * (freq : ℂ) * 2
      * ((Real.pi : ℝ) : ℂ)))

/-- One filter stage (pid.py lines 146-155) with non-finite tracking: the inner
division `f/frequencies` of a high-pass stage and the outer gain division both
poison the sample when their denominator is exactly zero. -/
noncomputable def filterStageFP (freq f : ℝ) (g : ℂ) : Option ℂ :=
  if f = 0 then some g
  else if 0 < f then
    (cdivFP (Complex.I * (freq : ℂ)) ((f : ℝ) : ℂ)).bind fun q => cdivFP g (1 + q)
  else
    (cdivFP (Complex.I * ((f : ℝ) : ℂ)) ((freq : ℝ) : ℂ)).bind fun q => cdivFP g (1 + q)

/-- The filter loop with non-finite tracking, accumulating the module delay
exactly as the exact-arithmetic `filterFold` does. -/
noncomputable def filterFoldFP (freq : ℝ) (start : Option ℂ × ℕ) (filt : List ℝ) :
    Option ℂ × ℕ :=
  filt.foldl (fun acc f => (acc.1.bind (filterStageFP freq f), acc.2 + stageDelay f)) start

/-- Pid.transfer_function with non-finite tracking: the same computation as
`transfer_function`, with `none` propagating from any exactly-zero denominator. -/
noncomputable def transfer_function_fp (p i c : ℝ) (filt : List ℝ) (extradelay freq : ℝ) :
    Option ℂ :=
  ((filterFoldFP freq ((intBranchFP i c freq).map (fun q => q + (p : ℂ)), 3) filt).1).map
    (fun q => q * Complex.exp (-Complex.I *
      ((((filterFoldFP freq ((intBranchFP i c freq).map (fun q => q + (p : ℂ)), 3)
          filt).2 : ℝ) * (8e-9 : ℝ) / c + extradelay : ℝ) : ℂ) * (freq : ℂ) * 2
      * ((Real.pi : ℝ) : ℂ)))

theorem filterFoldFP_cons (freq : ℝ) (start : Option ℂ × ℕ) (f : ℝ) (fs : List ℝ) :
    filterFoldFP freq start (f :: fs)
      = filterFoldFP freq (start.1.bind (filterStageFP freq f),
          start.2 + stageDelay f) fs := rfl

theorem filterFoldFP_none (freq : ℝ) (fs : List ℝ) :
    ∀ n : ℕ, (filterFoldFP freq (none, n) fs).1 = none := by
  induction fs with
  | nil => intro n; rfl
  | cons f fs ih =>
    intro n
    rw [filterFoldFP_cons]
    simp only [Option.none_bind]
    exact ih _

theorem intBranchFP_zero_freq (i c : ℝ) : intBranchFP i c 0 = none := by
  simp [intBranchFP, cdivFP]

theorem transfer_function_fp_zero_freq (p i c extradelay : ℝ) (filt : List ℝ) :
    transfer_function_fp p i c filt extradelay 0 = none := by
  unfold transfer_function_fp
  rw [intBranchFP_zero_freq]
  simp [filterFoldFP_none]

/-- C6 counterexample: evaluating the code at frequency 0 with integral gain
1000 (and correction factor 1, no filters, no extra delay), the zero-frequency
sample is the unlabeled non-finite value produced by the unguarded division
`self.i/(frequencies*1j)` — a silent NaN/inf, which the claim says must never
occur; no exception and no labeled singular outcome exists in the code. -/
theorem C6_singularity_counterexample :
    transfer_function_fp 0 1000 1 [] 0 0 = none :=
  transfer_function_fp_zero_freq 0 1000 1 0 []

/-- C6 amended: at a frequency sample equal to 0 the synthesizer performs the
integral-term division unguarded, so for every gain snapshot and filter
configuration the zero-frequency sample is an unlabeled non-finite (NaN/inf)
value; nothing in transfer_function raises, labels or otherwise distinguishes
it from an ordinary sample. -/
theorem C6_zero_freq_unlabeled (p i c extradelay : ℝ) (filt : List ℝ) :
    transfer_function_fp p i c filt extradelay 0 = none :=
  transfer_function_fp_zero_freq p i c extradelay filt

/-- C10: the zero-frequency division is unguarded even without an integral
branch: with i = 0 the integral term is the invalid division 0/0, so the
zero-frequency sample of a purely proportional configuration is a non-finite
(NaN) sample rather than the proportional gain p. -/
theorem C10_zero_freq_nan (p c extradelay : ℝ) (filt : List ℝ) :
    intBranchFP 0 c 0 = none ∧
    transfer_function_fp p 0 c filt extradelay 0 = none :=
  ⟨intBranchFP_zero_freq 0 c, transfer_function_fp_zero_freq p 0 c extradelay filt⟩

/-! ## Register parameters and the hardware accesses of transfer_function
(C7, C8, C9) -/

/-- Hardware-facing state of one Pid module: raw register contents by address,
plus the inputfilter configuration owned by the FilterModule parent. -/
structure PidHw where
  regs : ℕ → ℤ
  inputfilter : List ℝ

/-- One observable hardware access. -/
inductive Access where
  | read (addr : ℕ)
  | readInputfilter
  | write (addr : ℕ) (raw : ℤ)

/-- A FloatRegister descriptor as declared by the Pid class attributes:
address, bit width, normalization, inversion. -/
structure FloatReg where
  addr : ℕ
  bits : ℕ
  norm : ℝ
  invert : Bool

def _PSR : ℕ := 12

def _ISR : ℕ := 32

def _DSR : ℕ := 10

def _GAINBITS : ℕ := 24

/-- `p = FloatRegister(0x108, bits=_GAINBITS, norm=2**_PSR)` (pid.py line 67). -/
noncomputable def p_reg : FloatReg := ⟨0x108, _GAINBITS, 2^_PSR, false⟩

/-- `i = FloatRegister(0x10C, bits=_GAINBITS, norm=2**_ISR * 2.0*np.pi*8e-9)`
(pid.py line 69). -/
noncomputable def i_reg : FloatReg :=
  ⟨0x10C, _GAINBITS, 2^_ISR * 2 * Real.pi * (8e-9 : ℝ), false⟩

/-- `d = FloatRegister(0x110, bits=_GAINBITS, norm=2**_DSR/(2.0*np.pi*8e-9),
invert=True)` (pid.py line 71). -/
noncomputable def d_reg : FloatReg :=
  ⟨0x110, _GAINBITS, 2^_DSR / (2 * Real.pi * (8e-9 : ℝ)), true⟩

/-- `normalization_i = FloatRegister(0x10C, bits=_GAINBITS,
norm=2**_ISR * 2.0*np.pi*8e-9 / 2**13 / 1.5625)` (pid.py line 165). -/
noncomputable def normalization_i_reg : FloatReg :=
  ⟨0x10C, _GAINBITS, 2^_ISR * 2 * Real.pi * (8e-9 : ℝ) / 2^13 / (1.5625 : ℝ), false⟩

/-- `normalization_inputoffset = FloatRegister(0x110, bits=(14+_DSR),
norm=2**(13+_DSR))` (pid.py line 177). -/
noncomputable def normalization_inputoffset_reg : FloatReg :=
  ⟨0x110, 14 + _DSR, 2^(13 + _DSR), false⟩

/-- Modelled from the spec: `RegisterParameter.get` decodes the raw register at
the descriptor's address as (invert ? -raw : raw)/norm (the FloatRegister read
path is not under src/). -/
noncomputable def regDecode (hw : PidHw) (r : FloatReg) : ℝ :=
  (((if r.invert then -(hw.regs r.addr) else hw.regs r.addr) : ℤ) : ℝ) / r.norm

/-- Modelled from the spec: a register `get` is one bus read at the descriptor's
address, returning the decoded value. -/
noncomputable def regGet (hw : PidHw) (r : FloatReg) : ℝ × List Access :=
  (regDecode hw r, [Access.read r.addr])

/-- Writing a raw register value at a descriptor's address. -/
def regWriteRaw (hw : PidHw) (r : FloatReg) (raw : ℤ) : PidHw :=
  { hw with regs := fun a => if a = r.addr then raw else hw.regs a }

/-- Reading the inputfilter configuration (a property of the FilterModule
parent, not under src/; modelled from the spec as one hardware-owned
configuration read). -/
def filterGet (hw : PidHw) : List ℝ × List Access :=
  (hw.inputfilter, [Access.readInputfilter])

/-- Pid.transfer_function together with the hardware accesses its attribute
reads perform: the body reads `self.i` (line 135), `self.p` (line 139) and
`self.inputfilter` (line 146) while it computes; the log lists these accesses
in order of occurrence. -/
noncomputable def transfer_function_io (hw : PidHw) (c : ℝ) (freq extradelay : ℝ) :
    ℂ × List Access :=
  (transfer_function (regGet hw p_reg).1 (regGet hw i_reg).1 c (filterGet hw).1
      extradelay freq,
   (regGet hw i_reg).2 ++ (regGet hw p_reg).2 ++ (filterGet hw).2)

/-- C7 counterexample: invoked on a concrete hardware state, transfer_function
performs a nonempty sequence of hardware reads between entry and return (it
reads the i and p gain registers and the filter configuration itself), contrary
to the claim that no bus access occurs during its execution. -/
theorem C7_purity_counterexample :
    (transfer_function_io ⟨fun _ => 0, []⟩ 1 1 0).2 ≠ [] := by
  simp [transfer_function_io, regGet, filterGet]

/-- C7 amended: transfer_function performs no hardware writes, but it is not
pure: during execution it reads the integral-gain register 0x10C, the
proportional-gain register 0x108 and the inputfilter configuration — exactly
these, in this order — rather than requiring the caller to snapshot them; its
value is the pure synthesizer applied to the register state live at call time. -/
theorem C7_hardware_reads (hw : PidHw) (c freq extradelay : ℝ) :
    (transfer_function_io hw c freq extradelay).2
      = [Access.read 0x10C, Access.read 0x108, Access.readInputfilter] ∧
    (transfer_function_io hw c freq extradelay).1
      = transfer_function (regDecode hw p_reg) (regDecode hw i_reg) c hw.inputfilter
          extradelay freq :=
  ⟨rfl, rfl⟩

theorem d_write_invisible (hw : PidHw) (raw : ℤ) (c freq extradelay : ℝ) :
    transfer_function_io (regWriteRaw hw d_reg raw) c freq extradelay
      = transfer_function_io hw c freq extradelay := by
  unfold transfer_function_io regGet regDecode filterGet regWriteRaw
  norm_num [p_reg, i_reg, d_reg]

/-- C8 counterexample: writing the nonzero raw value 12345 into the derivative
gain register (0x110) and then invoking transfer_function returns exactly the
same response and the same access log as with the register at 0: the derivative
request is silently ignored (the derivative block is commented out in pid.py
lines 141-144), no error of any kind is raised or reported. -/
theorem C8_derivative_counterexample :
    transfer_function_io (regWriteRaw ⟨fun _ => 0, []⟩ d_reg 12345) 1 1 0
      = transfer_function_io ⟨fun _ => 0, []⟩ 1 1 0 :=
  d_write_invisible ⟨fun _ => 0, []⟩ 12345 1 1 0

/-- C8 amended: the derivative branch is absent from transfer_function: the
function never reads the derivative gain register 0x110 and has no error path,
so for every hardware state, arbitrarily overwriting the d register changes
neither the returned response nor the access log — a nonzero derivative gain is
silently ignored rather than reported. -/
theorem C8_derivative_ignored (hw : PidHw) (raw : ℤ) (c freq extradelay : ℝ) :
    transfer_function_io (regWriteRaw hw d_reg raw) c freq extradelay
      = transfer_function_io hw c freq extradelay :=
  d_write_invisible hw raw c freq extradelay

/-- C9: register aliasing: normalization_i is bound to the same address 0x10C as
the integral gain i, and normalization_inputoffset to the same address 0x110 as
the derivative gain d; writing a raw value through one member of a pair makes a
subsequent get of the other member return that raw value decoded under its own
normalization and inversion, for every prior hardware state — the parameters are
not independently stored. -/
theorem C9_register_aliasing (hw : PidHw) (raw : ℤ) :
    i_reg.addr = normalization_i_reg.addr ∧
    d_reg.addr = normalization_inputoffset_reg.addr ∧
    regDecode (regWriteRaw hw i_reg raw) normalization_i_reg
      = (raw : ℝ) / normalization_i_reg.norm ∧
    regDecode (regWriteRaw hw normalization_i_reg raw) i_reg
      = (raw : ℝ) / i_reg.norm ∧
    regDecode (regWriteRaw hw d_reg raw) normalization_inputoffset_reg
      = (raw : ℝ) / normalization_inputoffset_reg.norm ∧
    regDecode (regWriteRaw hw normalization_inputoffset_reg raw) d_reg
      = -((raw : ℝ) / d_reg.norm) := by
  refine ⟨rfl, rfl, ?_, ?_, ?_, ?_⟩ <;>
    simp [regDecode, regWriteRaw, i_reg, d_reg, normalization_i_reg,
      normalization_inputoffset_reg, neg_div]

end Pyrpl
